import Mathlib

/- Verification of the Handlebars-to-Sline transpiler (src/main.rs).

   Texts are modelled as lists of characters; the byte offsets of the Rust
   code become character offsets (all delimiters and keywords are ASCII).
   Functions taking `&mut Vec<Diagnostic>` return the list of diagnostics
   they push, in push order; the caller appends it.  The scan cursor of
   `transpile` is modelled by passing the remaining suffix of the input. -/

namespace Sline

/-- The characters of a string. -/
def chars (s : String) : List Char := s.data

/-- Leading and trailing whitespace removed (models str::trim). -/
def trimChars (s : List Char) : List Char :=
  ((s.dropWhile Char.isWhitespace).reverse.dropWhile Char.isWhitespace).reverse

/-- Offset of the first occurrence of pat in s (models str::find). -/
def findSub : List Char → List Char → Option Nat
  | [], pat => if pat.isPrefixOf ([] : List Char) then some 0 else none
  | s@(_ :: rest), pat =>
    if pat.isPrefixOf s then some 0 else (findSub rest pat).map (· + 1)

/-- Models str::strip_prefix: some remainder when p is a prefix of s. -/
def stripPre (p s : List Char) : Option (List Char) :=
  if p.isPrefixOf s then some (s.drop p.length) else none

/-- The opening delimiter (two opening braces). -/
def openPat : List Char := chars "\x7b\x7b"

/-- The triple opening delimiter. -/
def openPat3 : List Char := chars "\x7b\x7b\x7b"

/-- The closing delimiter (two closing braces). -/
def closePat : List Char := chars "\x7d\x7d"

/-- The triple closing delimiter. -/
def closePat3 : List Char := chars "\x7d\x7d\x7d"

/-- The open delimiter length: 3 for a triple tag, else 2 (main.rs line 198). -/
def openLenOf (t : Bool) : Nat := if t then 3 else 2

/-- The closing sequence for the detected form (main.rs line 199). -/
def closeSeqOf (t : Bool) : List Char := if t then closePat3 else closePat

/-- Diagnostic severity (main.rs lines 6-10). -/
inductive Level where
  | Warning : Level
  | Error : Level
deriving DecidableEq

/-- A diagnostic record (main.rs lines 12-16). -/
structure Diagnostic where
  level : Level
  message : String
deriving DecidableEq

/-- Transpiler options (main.rs lines 18-21). -/
structure Options where
  allow_parent : Bool
deriving DecidableEq

/-- An open block context (main.rs lines 23-26); the field is the alias. -/
inductive BlockContext where
  | Each : List Char → BlockContext
deriving DecidableEq

/-- Result of find_block_close (main.rs lines 265-268); stop is the field
    named end in the source (end is a Lean keyword). -/
structure BlockClose where
  start : Nat
  stop : Nat
deriving DecidableEq

/-- The while loop of transform_expression's allow_parent branch
    (main.rs lines 384-389): strip leading parent segments, counting them. -/
def stripParentSegs : List Char → List Char × Nat
  | '.' :: '.' :: '/' :: rest =>
    let p := stripParentSegs rest
    (p.1, p.2 + 1)
  | s => (s, 0)

/-- The alias rules of transform_expression after the parent-scope handling
    (main.rs lines 404-430). -/
def aliasRules (content : List Char) (aliasOpt : Option (List Char)) :
    List Char × List Diagnostic :=
  match aliasOpt with
  | some a =>
    if content = chars "this" then (a, [])
    else
      match stripPre (chars "this.") content with
      | some rest => (a ++ chars "." ++ rest, [])
      | none =>
        match stripPre (chars "./") content with
        | some rest => (a ++ chars "." ++ rest, [])
        | none => (content, [])
  | none =>
    if content = chars "this" then
      (content, [⟨Level.Warning, "Found \x7b\x7bthis\x7d\x7d without an each context"⟩])
    else
      match stripPre (chars "this.") content with
      | some rest => (rest, [])
      | none =>
        match stripPre (chars "./") content with
        | some rest => (rest, [])
        | none => (content, [])

/-- transform_expression (main.rs lines 374-431). -/
def transform_expression (tag : List Char) (aliasOpt : Option (List Char))
    (options : Options) : List Char × List Diagnostic :=
  let content := trimChars tag
  if (chars "../").isPrefixOf content then
    if options.allow_parent then
      let p := stripParentSegs content
      let r := aliasRules p.1 aliasOpt
      (r.1, ⟨Level.Warning,
        "Stripped " ++ toString p.2 ++ " parent scope segments (../)"⟩ :: r.2)
    else
      (tag, [⟨Level.Error, "Parent scope access (../) is not supported in Sline"⟩])
  else
    aliasRules content aliasOpt

/-- parse_each (main.rs lines 358-372). -/
def parse_each (rest : List Char) : List Char × List Char :=
  match findSub rest (chars " as |") with
  | some pos =>
    let after := rest.drop (pos + (chars " as |").length)
    match findSub after (chars "|") with
    | some e =>
      let aliasV := trimChars (after.take e)
      if aliasV ≠ [] then (trimChars (rest.take pos), aliasV)
      else (trimChars rest, chars "item")
    | none => (trimChars rest, chars "item")
  | none => (trimChars rest, chars "item")

/-- transform_tag (main.rs lines 294-356).  The mutable stack is threaded
    through; the third component is the list of diagnostics the call pushes. -/
def transform_tag (tag : List Char) (stack : List BlockContext)
    (options : Options) : List Char × List BlockContext × List Diagnostic :=
  match stripPre (chars "#each") tag with
  | some rest =>
    let p := parse_each (trimChars rest)
    (chars "#for " ++ p.2 ++ chars " in " ++ p.1, BlockContext.Each p.2 :: stack, [])
  | none =>
    if tag = chars "/each" then
      match stack with
      | _ :: rest => (chars "/for", rest, [])
      | [] => (chars "/for", [], [⟨Level.Error, "Unexpected closing tag /each"⟩])
    else
      match stripPre (chars "#unless") tag with
      | some rest => (chars "#if !(" ++ trimChars rest ++ chars ")", stack, [])
      | none =>
        if tag = chars "/unless" then (chars "/if", stack, [])
        else
          match stripPre (chars "#if") tag with
          | some rest => (chars "#if " ++ trimChars rest, stack, [])
          | none =>
            if tag = chars "/if" then (chars "/if", stack, [])
            else if tag = chars "else" then (chars "else", stack, [])
            else if (chars "#with").isPrefixOf tag || tag = chars "/with" then
              (tag, stack, [⟨Level.Warning, "Handlebars #with blocks are not converted"⟩])
            else
              let aliasOpt : Option (List Char) :=
                match stack with
                | BlockContext.Each a :: _ => some a
                | [] => none
              let r := transform_expression tag aliasOpt options
              (r.1, stack, r.2)

/-- The scanning core of find_block_close (main.rs lines 270-292) on the
    suffix source[start_index..]; offsets are relative to that suffix. -/
def fbcAux (source : List Char) (closeTag : List Char) : Option BlockClose :=
  match findSub source openPat with
  | none => none
  | some relStart =>
    let isTriple := openPat3.isPrefixOf (source.drop relStart)
    match h2 : findSub ((source.drop relStart).drop (openLenOf isTriple))
        (closeSeqOf isTriple) with
    | none => none
    | some closeRel =>
      let tokenTrim := trimChars
        (((source.drop relStart).drop (openLenOf isTriple)).take closeRel)
      let tagLen := openLenOf isTriple + closeRel + (closeSeqOf isTriple).length
      if tokenTrim = closeTag then some ⟨relStart, relStart + tagLen⟩
      else
        match fbcAux (source.drop (relStart + tagLen)) closeTag with
        | none => none
        | some bc => some ⟨relStart + tagLen + bc.start, relStart + tagLen + bc.stop⟩
termination_by source.length
decreasing_by
  simp only [List.length_drop]
  have hs : source ≠ [] := by
    intro h
    rw [h] at h2
    simp only [List.drop_nil] at h2
    have hn : findSub ([] : List Char) (closeSeqOf isTriple) = none := by
      unfold closeSeqOf
      split <;> decide
    rw [hn] at h2
    cases h2
  have h0 : 0 < source.length := List.length_pos.mpr hs
  have ho : 0 < openLenOf (openPat3.isPrefixOf (source.drop relStart)) := by
    unfold openLenOf
    split <;> omega
  omega

/-- find_block_close (main.rs lines 270-292): the close tag is "/" ++ name,
    the scan starts at start_index, offsets are absolute. -/
def find_block_close (source : List Char) (start_index : Nat)
    (name : List Char) : Option BlockClose :=
  (fbcAux (source.drop start_index) (chars "/" ++ name)).map
    fun bc => ⟨start_index + bc.start, start_index + bc.stop⟩

/-- The while loop of transpile (main.rs lines 193-260) together with the
    final flush and the unclosed-block drain (lines 251-260).  The cursor is
    modelled by passing the remaining suffix s = input[index..]; output is
    the accumulator.  The middle component of the result is the block-context
    stack as the function returns (the entries the drain reports); the Rust
    function returns only (output, diagnostics). -/
def transpileLoop (options : Options) (s : List Char)
    (stack : List BlockContext) (diagnostics : List Diagnostic)
    (output : List Char) : List Char × List BlockContext × List Diagnostic :=
  match findSub s openPat with
  | none =>
    (output ++ s, stack,
      diagnostics ++ stack.map fun _ => ⟨Level.Error, "Unclosed block: each"⟩)
  | some relStart =>
    let flushed := output ++ s.take relStart
    let isTriple := openPat3.isPrefixOf (s.drop relStart)
    match h2 : findSub ((s.drop relStart).drop (openLenOf isTriple))
        (closeSeqOf isTriple) with
    | none => (flushed ++ s.drop relStart, stack, diagnostics)
    | some closeRel =>
      let tokenTrim := trimChars (((s.drop relStart).drop (openLenOf isTriple)).take closeRel)
      let tagLen := openLenOf isTriple + closeRel + (closeSeqOf isTriple).length
      if (chars "!--").isPrefixOf tokenTrim then
        transpileLoop options (s.drop (relStart + tagLen)) stack diagnostics
          (flushed ++ (s.drop relStart).take tagLen)
      else if (chars "#comment").isPrefixOf tokenTrim then
        match find_block_close (s.drop (relStart + tagLen)) 0 (chars "comment") with
        | some bc =>
          transpileLoop options ((s.drop (relStart + tagLen)).drop bc.stop) stack diagnostics
            (flushed ++ chars "\x7b\x7b!--" ++ (s.drop (relStart + tagLen)).take bc.start
              ++ chars "--\x7d\x7d")
        | none =>
          transpileLoop options (s.drop (relStart + tagLen)) stack
            (diagnostics ++ [⟨Level.Error, "Unclosed \x7b\x7b#comment\x7d\x7d block"⟩])
            (flushed ++ (s.drop relStart).take tagLen)
      else
        let r := transform_tag tokenTrim stack options
        let wrapped :=
          if isTriple then chars "\x7b\x7b\x7b " ++ r.1 ++ chars " \x7d\x7d\x7d"
          else chars "\x7b\x7b " ++ r.1 ++ chars " \x7d\x7d"
        transpileLoop options (s.drop (relStart + tagLen)) r.2.1
          (diagnostics ++ r.2.2) (flushed ++ wrapped)
termination_by s.length
decreasing_by
  all_goals
    simp only [List.length_drop]
    have hs : s ≠ [] := by
      intro h
      rw [h] at h2
      simp only [List.drop_nil] at h2
      have hn : findSub ([] : List Char) (closeSeqOf isTriple) = none := by
        unfold closeSeqOf
        split <;> decide
      rw [hn] at h2
      cases h2
    have h0 : 0 < s.length := List.length_pos.mpr hs
    have ho : 0 < openLenOf (openPat3.isPrefixOf (s.drop relStart)) := by
      unfold openLenOf
      split <;> omega
    omega

/-- transpile (main.rs lines 187-263). -/
def transpile (input : List Char) (options : Options) :
    List Char × List Diagnostic :=
  let r := transpileLoop options input [] [] []
  (r.1, r.2.2)

/-- Fuel-indexed form of fbcAux, used to evaluate the well-founded recursion
    on concrete inputs; the outer none means the fuel ran out (it never does
    once the fuel exceeds the length of the scanned suffix). -/
def fbcAuxF : Nat → List Char → List Char → Option (Option BlockClose)
  | 0, _, _ => none
  | fuel + 1, source, closeTag =>
    match findSub source openPat with
    | none => some none
    | some relStart =>
      let isTriple := openPat3.isPrefixOf (source.drop relStart)
      match findSub ((source.drop relStart).drop (openLenOf isTriple))
          (closeSeqOf isTriple) with
      | none => some none
      | some closeRel =>
        let tokenTrim := trimChars
          (((source.drop relStart).drop (openLenOf isTriple)).take closeRel)
        let tagLen := openLenOf isTriple + closeRel + (closeSeqOf isTriple).length
        if tokenTrim = closeTag then some (some ⟨relStart, relStart + tagLen⟩)
        else
          match fbcAuxF fuel (source.drop (relStart + tagLen)) closeTag with
          | none => none
          | some none => some none
          | some (some bc) =>
            some (some ⟨relStart + tagLen + bc.start, relStart + tagLen + bc.stop⟩)

/-- Fuel-indexed form of transpileLoop, used to evaluate the well-founded
    recursion on concrete inputs; none means the fuel ran out. -/
def transpileLoopF : Nat → Options → List Char → List BlockContext →
    List Diagnostic → List Char →
    Option (List Char × List BlockContext × List Diagnostic)
  | 0, _, _, _, _, _ => none
  | fuel + 1, options, s, stack, diagnostics, output =>
    match findSub s openPat with
    | none =>
      some (output ++ s, stack,
        diagnostics ++ stack.map fun _ => ⟨Level.Error, "Unclosed block: each"⟩)
    | some relStart =>
      let flushed := output ++ s.take relStart
      let isTriple := openPat3.isPrefixOf (s.drop relStart)
      match findSub ((s.drop relStart).drop (openLenOf isTriple))
          (closeSeqOf isTriple) with
      | none => some (flushed ++ s.drop relStart, stack, diagnostics)
      | some closeRel =>
        let tokenTrim := trimChars
          (((s.drop relStart).drop (openLenOf isTriple)).take closeRel)
        let tagLen := openLenOf isTriple + closeRel + (closeSeqOf isTriple).length
        if (chars "!--").isPrefixOf tokenTrim then
          transpileLoopF fuel options (s.drop (relStart + tagLen)) stack diagnostics
            (flushed ++ (s.drop relStart).take tagLen)
        else if (chars "#comment").isPrefixOf tokenTrim then
          match fbcAuxF ((s.drop (relStart + tagLen)).length + 1)
              ((s.drop (relStart + tagLen)).drop 0) (chars "/" ++ chars "comment") with
          | none => none
          | some fbr =>
            match fbr.map (fun bc => (⟨0 + bc.start, 0 + bc.stop⟩ : BlockClose)) with
            | some bc =>
              transpileLoopF fuel options ((s.drop (relStart + tagLen)).drop bc.stop)
                stack diagnostics
                (flushed ++ chars "\x7b\x7b!--" ++ (s.drop (relStart + tagLen)).take bc.start
                  ++ chars "--\x7d\x7d")
            | none =>
              transpileLoopF fuel options (s.drop (relStart + tagLen)) stack
                (diagnostics ++ [⟨Level.Error, "Unclosed \x7b\x7b#comment\x7d\x7d block"⟩])
                (flushed ++ (s.drop relStart).take tagLen)
        else
          let r := transform_tag tokenTrim stack options
          let wrapped :=
            if isTriple then chars "\x7b\x7b\x7b " ++ r.1 ++ chars " \x7d\x7d\x7d"
            else chars "\x7b\x7b " ++ r.1 ++ chars " \x7d\x7d"
          transpileLoopF fuel options (s.drop (relStart + tagLen)) r.2.1
            (diagnostics ++ r.2.2) (flushed ++ wrapped)

/-- Whether pat occurs in s (used to state containment of a fragment). -/
def containsSub (s pat : List Char) : Bool := (findSub s pat).isSome

/-- The tag of the driver's shape at the head of the suffix u: its trimmed
    token and the offset just past its closing delimiter (relative to u),
    following the delimiter detection of main.rs lines 197-211. -/
def tagHere (u : List Char) : Option (List Char × Nat) :=
  if openPat.isPrefixOf u then
    let isTriple := openPat3.isPrefixOf u
    match findSub (u.drop (openLenOf isTriple)) (closeSeqOf isTriple) with
    | none => none
    | some closeRel =>
      some (trimChars ((u.drop (openLenOf isTriple)).take closeRel),
        openLenOf isTriple + closeRel + (closeSeqOf isTriple).length)
  else none

/-- The tag of the driver's shape at offset p of source: its trimmed token
    and the absolute offset just past its closing delimiter. -/
def tagAt (source : List Char) (p : Nat) : Option (List Char × Nat) :=
  (tagHere (source.drop p)).map fun q => (q.1, p + q.2)

/- ------------------------------------------------------------------ -/
/- Theorems.                                                           -/
/- ------------------------------------------------------------------ -/

/-- A nonempty list dropped by a positive amount gets strictly shorter. -/
theorem drop_pos_length_lt {s : List Char} {n : Nat} (hs : s ≠ []) (hn : 0 < n) :
    (s.drop n).length < s.length := by
  have h0 : 0 < s.length := List.length_pos.mpr hs
  simp only [List.length_drop]
  omega

/-- The open delimiter length is positive. -/
theorem openLenOf_pos (t : Bool) : 0 < openLenOf t := by
  cases t <;> decide

/-- Searching the empty text for a closing sequence fails. -/
theorem findSub_nil_closeSeq (t : Bool) :
    findSub ([] : List Char) (closeSeqOf t) = none := by
  cases t <;> decide

/-- A successful inner close search forces the scanned text to be nonempty. -/
theorem findSub_close_ne_nil {s : List Char} {a b c : Nat} {t : Bool}
    (h : findSub ((s.drop a).drop b) (closeSeqOf t) = some c) : s ≠ [] := by
  intro he
  rw [he] at h
  simp only [List.drop_nil] at h
  rw [findSub_nil_closeSeq] at h
  cases h

/-- The fuel-indexed fbcAuxF computes fbcAux whenever the fuel exceeds the
    length of the scanned suffix. -/
theorem fbcAuxF_complete (fuel : Nat) :
    ∀ (source closeTag : List Char), source.length < fuel →
      fbcAuxF fuel source closeTag = some (fbcAux source closeTag) := by
  induction fuel with
  | zero => exact fun s t h => absurd h (by omega)
  | succ n ih =>
    intro s t h
    rw [fbcAux.eq_def]
    simp only [fbcAuxF]
    cases hf : findSub s openPat with
    | none => rfl
    | some relStart =>
      simp only []
      cases hc : findSub ((s.drop relStart).drop
          (openLenOf (openPat3.isPrefixOf (s.drop relStart))))
          (closeSeqOf (openPat3.isPrefixOf (s.drop relStart))) with
      | none => rfl
      | some closeRel =>
        simp only []
        split
        · rfl
        · have hlt : (s.drop (relStart +
              (openLenOf (openPat3.isPrefixOf (s.drop relStart)) + closeRel +
               (closeSeqOf (openPat3.isPrefixOf (s.drop relStart))).length))).length < s.length := by
            refine drop_pos_length_lt (findSub_close_ne_nil hc) ?hn
            have := openLenOf_pos (openPat3.isPrefixOf (s.drop relStart))
            omega
          rw [ih _ t (by omega)]
          cases fbcAux (s.drop (relStart +
              (openLenOf (openPat3.isPrefixOf (s.drop relStart)) + closeRel +
               (closeSeqOf (openPat3.isPrefixOf (s.drop relStart))).length))) t with
          | none => rfl
          | some bc => rfl

/-- The fuel-indexed transpileLoopF computes transpileLoop whenever the fuel
    exceeds the length of the remaining input. -/
theorem transpileLoopF_complete (fuel : Nat) :
    ∀ (options : Options) (s : List Char) (stack : List BlockContext)
      (diagnostics : List Diagnostic) (output : List Char), s.length < fuel →
      transpileLoopF fuel options s stack diagnostics output =
        some (transpileLoop options s stack diagnostics output) := by
  induction fuel with
  | zero => exact fun o s st d out h => absurd h (by omega)
  | succ n ih =>
    intro o s st d out h
    rw [transpileLoop.eq_def]
    simp only [transpileLoopF]
    cases hf : findSub s openPat with
    | none => rfl
    | some relStart =>
      simp only []
      cases hc : findSub ((s.drop relStart).drop
          (openLenOf (openPat3.isPrefixOf (s.drop relStart))))
          (closeSeqOf (openPat3.isPrefixOf (s.drop relStart))) with
      | none => rfl
      | some closeRel =>
        simp only []
        have hne : s ≠ [] := findSub_close_ne_nil hc
        have hol := openLenOf_pos (openPat3.isPrefixOf (s.drop relStart))
        have hlt : (s.drop (relStart +
            (openLenOf (openPat3.isPrefixOf (s.drop relStart)) + closeRel +
             (closeSeqOf (openPat3.isPrefixOf (s.drop relStart))).length))).length < s.length :=
          drop_pos_length_lt hne (by omega)
        split
        · exact ih o _ st d _ (by omega)
        · split
          · rw [find_block_close]
            rw [fbcAuxF_complete ((s.drop (relStart +
                (openLenOf (openPat3.isPrefixOf (s.drop relStart)) + closeRel +
                 (closeSeqOf (openPat3.isPrefixOf (s.drop relStart))).length))).length + 1)
                ((s.drop (relStart +
                (openLenOf (openPat3.isPrefixOf (s.drop relStart)) + closeRel +
                 (closeSeqOf (openPat3.isPrefixOf (s.drop relStart))).length))).drop 0)
                (chars "/" ++ chars "comment")
                (by simp only [List.drop_zero]; omega)]
            cases hb : fbcAux ((s.drop (relStart +
                (openLenOf (openPat3.isPrefixOf (s.drop relStart)) + closeRel +
                 (closeSeqOf (openPat3.isPrefixOf (s.drop relStart))).length))).drop 0)
                (chars "/" ++ chars "comment") with
            | none => exact ih o _ st _ _ (by omega)
            | some bc =>
              simp only [Option.map_some']
              exact ih o _ st d _ (by simp only [List.length_drop]; omega)
          · exact ih o _ _ _ _ (by omega)

/-- A successful substring search returns an offset where the pattern is
    a prefix of the rest. -/
theorem findSub_isPrefixOf {s pat : List Char} :
    ∀ {n : Nat}, findSub s pat = some n → pat.isPrefixOf (s.drop n) = true := by
  induction s with
  | nil =>
    intro n h
    simp only [findSub] at h
    split at h
    · next hp =>
      cases h
      simpa using hp
    · cases h
  | cons c rest ih =>
    intro n h
    simp only [findSub] at h
    split at h
    · next hp =>
      cases h
      simpa using hp
    · obtain ⟨m, hm, hn⟩ := Option.map_eq_some'.mp h
      subst hn
      simpa [List.drop_succ_cons] using ih hm

/-- stripPre applied to an exact prefix concatenation. -/
theorem stripPre_append (p r : List Char) : stripPre p (p ++ r) = some r := by
  simp only [stripPre]
  rw [if_pos (List.isPrefixOf_iff_prefix.mpr (List.prefix_append p r))]
  rw [List.drop_left]

/-- stripPre succeeds exactly on concatenations with the prefix. -/
theorem stripPre_eq_some {p s r : List Char} :
    stripPre p s = some r ↔ s = p ++ r := by
  constructor
  · intro h
    simp only [stripPre] at h
    split at h
    · next hp =>
      obtain ⟨t, ht⟩ := List.isPrefixOf_iff_prefix.mp hp
      cases h
      rw [← ht, List.drop_left]
    · cases h
  · intro h
    subst h
    exact stripPre_append p r

/-- Evaluation helper: a fuel-computed run of the loop determines both
    transpile and transpileLoop on that input. -/
theorem transpile_eval (input : List Char) (o : Options)
    (r : List Char × List BlockContext × List Diagnostic)
    (h : transpileLoopF (input.length + 1) o input [] [] [] = some r) :
    transpile input o = (r.1, r.2.2) ∧ transpileLoop o input [] [] [] = r := by
  have hc := transpileLoopF_complete (input.length + 1) o input [] [] [] (by omega)
  rw [h] at hc
  have he := (Option.some_inj.mp hc).symm
  exact ⟨by simp only [transpile, he], he⟩

/-- Evaluation helper for find_block_close through its fuel twin. -/
theorem fbc_eval (source : List Char) (i : Nat) (name : List Char)
    (r : Option BlockClose)
    (h : fbcAuxF ((source.drop i).length + 1) (source.drop i) (chars "/" ++ name) = some r) :
    find_block_close source i name =
      r.map fun bc => ⟨i + bc.start, i + bc.stop⟩ := by
  have hc := fbcAuxF_complete ((source.drop i).length + 1) (source.drop i)
    (chars "/" ++ name) (by omega)
  rw [h] at hc
  rw [find_block_close, ← Option.some_inj.mp hc]

/-- C2, counterexample: on input consisting of the tag with token ../foo and
    allow_parent false, the output does not contain the literal unrewritten
    tag (the driver re-wraps the unchanged token with single-space padding),
    while the diagnostics are exactly one such Error. -/
theorem c2_parent_literal_cex :
    containsSub (transpile (chars "\x7b\x7b../foo\x7d\x7d") ⟨false⟩).1
      (chars "\x7b\x7b../foo\x7d\x7d") = false ∧
    (transpile (chars "\x7b\x7b../foo\x7d\x7d") ⟨false⟩).2 =
      [⟨Level.Error, "Parent scope access (../) is not supported in Sline"⟩] := by
  obtain ⟨h1, _⟩ := transpile_eval (chars "\x7b\x7b../foo\x7d\x7d") ⟨false⟩
    (chars "\x7b\x7b ../foo \x7d\x7d", [],
     [⟨Level.Error, "Parent scope access (../) is not supported in Sline"⟩])
    (by decide)
  rw [h1]
  exact ⟨by decide, rfl⟩

/-- C2, amended: with allow_parent false the token ../foo is returned
    unchanged (no stripping) but re-wrapped with the driver's single-space
    padding, so the output is the padded tag, and the diagnostics are
    exactly one Error about parent scope access. -/
theorem c2_parent_amended :
    transpile (chars "\x7b\x7b../foo\x7d\x7d") ⟨false⟩ =
      (chars "\x7b\x7b ../foo \x7d\x7d",
       [⟨Level.Error, "Parent scope access (../) is not supported in Sline"⟩]) := by
  obtain ⟨h1, _⟩ := transpile_eval (chars "\x7b\x7b../foo\x7d\x7d") ⟨false⟩
    (chars "\x7b\x7b ../foo \x7d\x7d", [],
     [⟨Level.Error, "Parent scope access (../) is not supported in Sline"⟩])
    (by decide)
  exact h1

/-- C8: a closing each tag with an empty stack yields the /for rewrite and
    one Error diagnostic; with a non-empty stack it pops exactly one entry
    and emits /for with no diagnostic; at the driver level the empty-stack
    case produces the padded /for tag and the single Error. -/
theorem c8_unexpected_each_close :
    (∀ o : Options, transform_tag (chars "/each") [] o =
      (chars "/for", [], [⟨Level.Error, "Unexpected closing tag /each"⟩])) ∧
    (∀ (c : BlockContext) (rest : List BlockContext) (o : Options),
      transform_tag (chars "/each") (c :: rest) o = (chars "/for", rest, [])) ∧
    transpile (chars "\x7b\x7b/each\x7d\x7d") ⟨false⟩ =
      (chars "\x7b\x7b /for \x7d\x7d", [⟨Level.Error, "Unexpected closing tag /each"⟩]) := by
  refine ⟨fun o => rfl, fun c rest o => rfl, ?h3⟩
  obtain ⟨h1, _⟩ := transpile_eval (chars "\x7b\x7b/each\x7d\x7d") ⟨false⟩
    (chars "\x7b\x7b /for \x7d\x7d", [], [⟨Level.Error, "Unexpected closing tag /each"⟩])
    (by decide)
  exact h1

/-- C9: the scan always terminates and yields a complete result: the
    fuel-indexed loop never exhausts a fuel of one more than the input
    length (each iteration strictly shortens the remaining input), and it
    computes exactly the total transpileLoop, of which transpile is the
    (output, diagnostics) projection. -/
theorem c9_terminates (input : List Char) (o : Options) :
    transpileLoopF (input.length + 1) o input [] [] [] =
      some (transpileLoop o input [] [] []) ∧
    transpile input o =
      ((transpileLoop o input [] [] []).1, (transpileLoop o input [] [] []).2.2) :=
  ⟨transpileLoopF_complete (input.length + 1) o input [] [] [] (by omega), rfl⟩

/-- C10, counterexample: the token with text #eachfoo as |x| is dispatched
    as an each-open, but it does not push the default alias item nor emit
    a for-loop over the raw rest: the each-parser extracts alias x. -/
theorem c10_each_prefix_cex :
    transform_tag (chars "#eachfoo as |x|") [] ⟨false⟩ =
      (chars "#for x in foo", [BlockContext.Each (chars "x")], []) ∧
    (transform_tag (chars "#eachfoo as |x|") [] ⟨false⟩).1 ≠
      chars "#for item in foo as |x|" ∧
    (transform_tag (chars "#eachfoo as |x|") [] ⟨false⟩).2.1 ≠
      [BlockContext.Each (chars "item")] :=
  ⟨by decide, by decide, by decide⟩

/-- C10, amended: each-open dispatch matches on the prefix #each alone with
    no whitespace requirement, parsing the rest with the each-parser; in
    particular #eachfoo (no following space, no alias marker) pushes the
    default alias item and emits a for-loop over foo. -/
theorem c10_each_prefix_amended :
    (∀ (r : List Char) (stack : List BlockContext) (o : Options),
      transform_tag (chars "#each" ++ r) stack o =
        (chars "#for " ++ (parse_each (trimChars r)).2 ++ chars " in " ++
          (parse_each (trimChars r)).1,
         BlockContext.Each (parse_each (trimChars r)).2 :: stack, [])) ∧
    transform_tag (chars "#eachfoo") [] ⟨false⟩ =
      (chars "#for item in foo", [BlockContext.Each (chars "item")], []) := by
  constructor
  · intro r stack o
    simp only [transform_tag, stripPre_append]
  · decide

/-- C5: the each-parser splits the trimmed text after #each on the marker
    " as |"; with the marker, a closing pipe and a non-blank alias between
    them it yields the trimmed expression and trimmed alias, otherwise the
    whole trimmed text with default alias item; the classifier pushes the
    parsed alias and emits the for-loop over the parsed expression. -/
theorem c5_parse_each_contract :
    (∀ rest : List Char, findSub rest (chars " as |") = none →
      parse_each rest = (trimChars rest, chars "item")) ∧
    (∀ (rest : List Char) (pos : Nat), findSub rest (chars " as |") = some pos →
      findSub (rest.drop (pos + (chars " as |").length)) (chars "|") = none →
      parse_each rest = (trimChars rest, chars "item")) ∧
    (∀ (rest : List Char) (pos e : Nat), findSub rest (chars " as |") = some pos →
      findSub (rest.drop (pos + (chars " as |").length)) (chars "|") = some e →
      trimChars ((rest.drop (pos + (chars " as |").length)).take e) = [] →
      parse_each rest = (trimChars rest, chars "item")) ∧
    (∀ (rest : List Char) (pos e : Nat), findSub rest (chars " as |") = some pos →
      findSub (rest.drop (pos + (chars " as |").length)) (chars "|") = some e →
      trimChars ((rest.drop (pos + (chars " as |").length)).take e) ≠ [] →
      parse_each rest = (trimChars (rest.take pos),
        trimChars ((rest.drop (pos + (chars " as |").length)).take e))) ∧
    (∀ (tag : List Char) (stack : List BlockContext) (o : Options) (rest : List Char),
      stripPre (chars "#each") tag = some rest →
      transform_tag tag stack o =
        (chars "#for " ++ (parse_each (trimChars rest)).2 ++ chars " in " ++
          (parse_each (trimChars rest)).1,
         BlockContext.Each (parse_each (trimChars rest)).2 :: stack, [])) := by
  refine ⟨?p1, ?p2, ?p3, ?p4, ?p5⟩
  case p1 =>
    intro rest h
    simp only [parse_each, h]
  case p2 =>
    intro rest pos h1 h2
    simp only [parse_each, h1, h2]
  case p3 =>
    intro rest pos e h1 h2 h3
    simp only [parse_each, h1, h2]
    split
    · next hcond => exact absurd h3 hcond
    · rfl
  case p4 =>
    intro rest pos e h1 h2 h3
    simp only [parse_each, h1, h2]
    split
    · rfl
    · next hcond =>
      exact absurd (by simpa using hcond) h3
  case p5 =>
    intro tag stack o rest h
    simp only [transform_tag, h]

/-- Content starting with the this-dot prefix never passes the parent-scope
    check. -/
theorem not_parent_of_thisdot (r : List Char) :
    (chars "../").isPrefixOf (chars "this." ++ r) = false := rfl

/-- Content starting with the dot-slash prefix never passes the parent-scope
    check. -/
theorem not_parent_of_dotslash (r : List Char) :
    (chars "../").isPrefixOf (chars "./" ++ r) = false := by
  cases r with
  | nil => rfl
  | cons c t =>
    show (('.' == '.') && (('.' == '/') && _)) = false
    simp

/-- C6: a bare expression token is rewritten with the alias of the top
    (most recently pushed) stack entry; with an active alias, this maps to
    the alias, a this-dot or dot-slash token maps to alias.rest, and any
    other token (not a parent-scope reference) is returned unchanged. -/
theorem c6_alias_rewrite :
    (∀ (a : List Char) (rest : List BlockContext) (tag : List Char) (o : Options),
      stripPre (chars "#each") tag = none → tag ≠ chars "/each" →
      stripPre (chars "#unless") tag = none → tag ≠ chars "/unless" →
      stripPre (chars "#if") tag = none → tag ≠ chars "/if" →
      tag ≠ chars "else" →
      (chars "#with").isPrefixOf tag = false → tag ≠ chars "/with" →
      transform_tag tag (BlockContext.Each a :: rest) o =
        ((transform_expression tag (some a) o).1, BlockContext.Each a :: rest,
         (transform_expression tag (some a) o).2)) ∧
    (∀ (a : List Char) (o : Options) (t : List Char),
      trimChars t = chars "this" →
      transform_expression t (some a) o = (a, [])) ∧
    (∀ (a : List Char) (o : Options) (t r : List Char),
      trimChars t = chars "this." ++ r →
      transform_expression t (some a) o = (a ++ chars "." ++ r, [])) ∧
    (∀ (a : List Char) (o : Options) (t r : List Char),
      trimChars t = chars "./" ++ r →
      transform_expression t (some a) o = (a ++ chars "." ++ r, [])) ∧
    (∀ (a : List Char) (o : Options) (t : List Char),
      (chars "../").isPrefixOf (trimChars t) = false →
      trimChars t ≠ chars "this" →
      (∀ r, trimChars t ≠ chars "this." ++ r) →
      (∀ r, trimChars t ≠ chars "./" ++ r) →
      transform_expression t (some a) o = (trimChars t, [])) := by
  refine ⟨?e0, ?e1, ?e2, ?e3, ?e4⟩
  case e0 =>
    intro a rest tag o h1 h2 h3 h4 h5 h6 h7 h8 h9
    simp only [transform_tag, h1, h3, h5, h8, Bool.false_or, decide_eq_true_eq]
    rw [if_neg h2, if_neg h4, if_neg h6, if_neg h7, if_neg h9]
  case e1 =>
    intro a o t h
    have hp : (chars "../").isPrefixOf (chars "this") = false := by decide
    simp [transform_expression, h, hp, aliasRules]
  case e2 =>
    intro a o t r h
    simp only [transform_expression, h, not_parent_of_thisdot,
      Bool.false_eq_true, if_false, aliasRules]
    have hne : chars "this." ++ r ≠ chars "this" := by
      intro hx
      have := congrArg List.length hx
      simp [chars] at this
    simp [if_neg hne, stripPre_append]
  case e3 =>
    intro a o t r h
    simp only [transform_expression, h, not_parent_of_dotslash,
      Bool.false_eq_true, if_false, aliasRules]
    have hne : chars "./" ++ r ≠ chars "this" := by
      intro hx
      have : (chars "./" ++ r).head? = (chars "this").head? := by rw [hx]
      simp [chars] at this
    have hns : stripPre (chars "this.") (chars "./" ++ r) = none := by
      cases hs : stripPre (chars "this.") (chars "./" ++ r) with
      | none => rfl
      | some q =>
        have := stripPre_eq_some.mp hs
        have hh : (chars "./" ++ r).head? = (chars "this." ++ q).head? := by rw [this]
        simp [chars] at hh
    simp [if_neg hne, hns, stripPre_append]
  case e4 =>
    intro a o t h1 h2 h3 h4
    simp only [transform_expression, h1, Bool.false_eq_true, if_false, aliasRules]
    have hns : stripPre (chars "this.") (trimChars t) = none := by
      cases hs : stripPre (chars "this.") (trimChars t) with
      | none => rfl
      | some q => exact absurd (stripPre_eq_some.mp hs) (h3 q)
    have hns2 : stripPre (chars "./") (trimChars t) = none := by
      cases hs : stripPre (chars "./") (trimChars t) with
      | none => rfl
      | some q => exact absurd (stripPre_eq_some.mp hs) (h4 q)
    simp [if_neg h2, hns, hns2]

/-- C1, counterexample: the input opens an each-block, then hits the
    unterminated-tag early return; one block context remains (the middle
    component) yet the diagnostics are empty, with no unclosed-block Error. -/
theorem c1_unclosed_drain_cex :
    transpileLoop ⟨false⟩ (chars "\x7b\x7b#each a\x7d\x7d\x7b\x7bx") [] [] [] =
      (chars "\x7b\x7b #for item in a \x7d\x7d\x7b\x7bx",
       [BlockContext.Each (chars "item")], []) ∧
    (transpile (chars "\x7b\x7b#each a\x7d\x7d\x7b\x7bx") ⟨false⟩).2 = [] := by
  obtain ⟨h1, h2⟩ := transpile_eval (chars "\x7b\x7b#each a\x7d\x7d\x7b\x7bx") ⟨false⟩
    (chars "\x7b\x7b #for item in a \x7d\x7d\x7b\x7bx",
     [BlockContext.Each (chars "item")], [])
    (by decide)
  exact ⟨h2, by rw [h1]⟩

/-- C1, amended: when the scan reaches the end of the input with no further
    opening delimiter (the normal exit, not the early return), the loop
    flushes the rest and appends one unclosed-block Error per entry that
    remains on the block context stack. -/
theorem c1_unclosed_drain_amended (o : Options) (s : List Char)
    (st : List BlockContext) (d : List Diagnostic) (out : List Char)
    (hf : findSub s openPat = none) :
    transpileLoop o s st d out =
      (out ++ s, st, d ++ st.map fun _ => ⟨Level.Error, "Unclosed block: each"⟩) := by
  have h := transpileLoopF_complete (s.length + 1) o s st d out (by omega)
  simp only [transpileLoopF, hf] at h
  exact (Option.some_inj.mp h).symm

/-- Witness for the amended C1 at a concrete state with two open blocks. -/
theorem c1_unclosed_drain_witness :
    transpileLoop ⟨false⟩ (chars "xy")
      [BlockContext.Each (chars "a"), BlockContext.Each (chars "b")] [] [] =
      (chars "xy", [BlockContext.Each (chars "a"), BlockContext.Each (chars "b")],
       [⟨Level.Error, "Unclosed block: each"⟩, ⟨Level.Error, "Unclosed block: each"⟩]) := by
  have h := c1_unclosed_drain_amended ⟨false⟩ (chars "xy")
    [BlockContext.Each (chars "a"), BlockContext.Each (chars "b")] [] [] (by decide)
  exact h

/-- C3: when the scanner finds an opening delimiter whose matching closing
    sequence (triple for a triple opening, double otherwise) does not occur
    in the rest of the input, the loop appends the entire remaining input
    verbatim and returns at once, leaving the diagnostics untouched (no
    diagnostic for the trailing fragment, and no unclosed-block drain). -/
theorem c3_early_return (o : Options) (s : List Char) (st : List BlockContext)
    (d : List Diagnostic) (out : List Char) (relStart : Nat)
    (hf : findSub s openPat = some relStart)
    (hc : findSub ((s.drop relStart).drop (openLenOf (openPat3.isPrefixOf (s.drop relStart))))
      (closeSeqOf (openPat3.isPrefixOf (s.drop relStart))) = none) :
    transpileLoop o s st d out = (out ++ s, st, d) := by
  have h := transpileLoopF_complete (s.length + 1) o s st d out (by omega)
  simp only [transpileLoopF, hf, hc] at h
  rw [(Option.some_inj.mp h).symm, List.append_assoc, List.take_append_drop]

/-- Witness for C3 at a concrete unterminated input. -/
theorem c3_early_return_witness :
    transpileLoop ⟨false⟩ (chars "ab\x7b\x7bcd") [] [] [] =
      (chars "ab\x7b\x7bcd", [], []) := by
  have h := c3_early_return ⟨false⟩ (chars "ab\x7b\x7bcd") [] [] [] 2
    (by decide) (by decide)
  exact h

/-- A token that starts with the comment-block keyword does not start with
    the literal-comment marker. -/
theorem isPrefixOf_bang_of_comment {tt : List Char}
    (h : (chars "#comment").isPrefixOf tt = true) :
    (chars "!--").isPrefixOf tt = false := by
  obtain ⟨r, hr⟩ := List.isPrefixOf_iff_prefix.mp h
  rw [← hr]
  rfl

/-- C7: a tag whose trimmed token starts with the comment keyword is, when a
    matching close is found, replaced by one literal-comment tag wrapping the
    exact source text between the tags, with the scan resuming past the
    close; when no close is found, one unclosed-comment Error is pushed, the
    opening tag is passed through unchanged, and the scan resumes just past
    it. -/
theorem c7_comment_block :
    (∀ (o : Options) (s : List Char) (st : List BlockContext) (d : List Diagnostic)
       (out : List Char) (relStart closeRel : Nat) (bc : BlockClose),
      findSub s openPat = some relStart →
      findSub ((s.drop relStart).drop (openLenOf (openPat3.isPrefixOf (s.drop relStart))))
        (closeSeqOf (openPat3.isPrefixOf (s.drop relStart))) = some closeRel →
      (chars "#comment").isPrefixOf (trimChars (((s.drop relStart).drop
        (openLenOf (openPat3.isPrefixOf (s.drop relStart)))).take closeRel)) = true →
      find_block_close (s.drop (relStart + (openLenOf (openPat3.isPrefixOf (s.drop relStart))
        + closeRel + (closeSeqOf (openPat3.isPrefixOf (s.drop relStart))).length)))
        0 (chars "comment") = some bc →
      transpileLoop o s st d out =
        transpileLoop o
          ((s.drop (relStart + (openLenOf (openPat3.isPrefixOf (s.drop relStart))
            + closeRel + (closeSeqOf (openPat3.isPrefixOf (s.drop relStart))).length))).drop bc.stop)
          st d
          (out ++ s.take relStart ++ chars "\x7b\x7b!--"
            ++ (s.drop (relStart + (openLenOf (openPat3.isPrefixOf (s.drop relStart))
              + closeRel + (closeSeqOf (openPat3.isPrefixOf (s.drop relStart))).length))).take bc.start
            ++ chars "--\x7d\x7d")) ∧
    (∀ (o : Options) (s : List Char) (st : List BlockContext) (d : List Diagnostic)
       (out : List Char) (relStart closeRel : Nat),
      findSub s openPat = some relStart →
      findSub ((s.drop relStart).drop (openLenOf (openPat3.isPrefixOf (s.drop relStart))))
        (closeSeqOf (openPat3.isPrefixOf (s.drop relStart))) = some closeRel →
      (chars "#comment").isPrefixOf (trimChars (((s.drop relStart).drop
        (openLenOf (openPat3.isPrefixOf (s.drop relStart)))).take closeRel)) = true →
      find_block_close (s.drop (relStart + (openLenOf (openPat3.isPrefixOf (s.drop relStart))
        + closeRel + (closeSeqOf (openPat3.isPrefixOf (s.drop relStart))).length)))
        0 (chars "comment") = none →
      transpileLoop o s st d out =
        transpileLoop o
          (s.drop (relStart + (openLenOf (openPat3.isPrefixOf (s.drop relStart))
            + closeRel + (closeSeqOf (openPat3.isPrefixOf (s.drop relStart))).length)))
          st (d ++ [⟨Level.Error, "Unclosed \x7b\x7b#comment\x7d\x7d block"⟩])
          (out ++ s.take relStart
            ++ (s.drop relStart).take (openLenOf (openPat3.isPrefixOf (s.drop relStart))
              + closeRel + (closeSeqOf (openPat3.isPrefixOf (s.drop relStart))).length))) := by
  constructor
  · intro o s st d out relStart closeRel bc hf hc htok hfb
    have hbang := isPrefixOf_bang_of_comment htok
    have goal := transpileLoop.eq_def o s st d out
    rw [hf] at goal
    dsimp only [] at goal
    split at goal
    · next heq =>
      rw [hc] at heq
      cases heq
    · next closeRel2 heq =>
      rw [hc] at heq
      injection heq with heq2
      subst heq2
      simp only [hbang, Bool.false_eq_true, if_false, htok, if_true, hfb] at goal
      rw [goal]
  · intro o s st d out relStart closeRel hf hc htok hfb
    have hbang := isPrefixOf_bang_of_comment htok
    have goal := transpileLoop.eq_def o s st d out
    rw [hf] at goal
    dsimp only [] at goal
    split at goal
    · next heq =>
      rw [hc] at heq
      cases heq
    · next closeRel2 heq =>
      rw [hc] at heq
      injection heq with heq2
      subst heq2
      simp only [hbang, Bool.false_eq_true, if_false, htok, if_true, hfb] at goal
      rw [goal]

/-- Witness for C7 at a concrete comment block with inner text X. -/
theorem c7_comment_block_witness :
    transpileLoop ⟨false⟩ (chars "\x7b\x7b#comment\x7d\x7dX\x7b\x7b/comment\x7d\x7dY") [] [] [] =
      transpileLoop ⟨false⟩ (chars "Y") [] [] (chars "\x7b\x7b!--X--\x7d\x7d") := by
  have hfb : find_block_close
      ((chars "\x7b\x7b#comment\x7d\x7dX\x7b\x7b/comment\x7d\x7dY").drop
        (0 + (openLenOf (openPat3.isPrefixOf
            ((chars "\x7b\x7b#comment\x7d\x7dX\x7b\x7b/comment\x7d\x7dY").drop 0))
          + 8 + (closeSeqOf (openPat3.isPrefixOf
            ((chars "\x7b\x7b#comment\x7d\x7dX\x7b\x7b/comment\x7d\x7dY").drop 0))).length)))
      0 (chars "comment") = some ⟨1, 13⟩ := by
    have h := fbc_eval
      ((chars "\x7b\x7b#comment\x7d\x7dX\x7b\x7b/comment\x7d\x7dY").drop
        (0 + (openLenOf (openPat3.isPrefixOf
            ((chars "\x7b\x7b#comment\x7d\x7dX\x7b\x7b/comment\x7d\x7dY").drop 0))
          + 8 + (closeSeqOf (openPat3.isPrefixOf
            ((chars "\x7b\x7b#comment\x7d\x7dX\x7b\x7b/comment\x7d\x7dY").drop 0))).length)))
      0 (chars "comment") (some ⟨1, 13⟩) (by decide)
    simpa using h
  have h := c7_comment_block.1 ⟨false⟩
    (chars "\x7b\x7b#comment\x7d\x7dX\x7b\x7b/comment\x7d\x7dY") [] [] [] 0 8 ⟨1, 13⟩
    (by decide) (by decide) (by decide) hfb
  exact h

/-- Shifting a tag found on a suffix to an absolute offset. -/
theorem tagAt_shift {u : List Char} {base q : Nat} {tok : List Char} {e : Nat}
    (h : tagAt (u.drop base) q = some (tok, e)) :
    tagAt u (base + q) = some (tok, base + e) := by
  simp only [tagAt, Option.map_eq_some'] at h
  obtain ⟨r, hr, hre⟩ := h
  rw [List.drop_drop] at hr
  injection hre with h1 h2
  simp only [tagAt, hr, Option.map_some']
  rw [h1, ← h2, Nat.add_assoc]

/-- Soundness of the fuel-indexed matcher core: a returned offset pair is a
    genuine tag of the driver's shape whose trimmed token is the close tag. -/
theorem fbcAuxF_sound (fuel : Nat) :
    ∀ (u t : List Char) (bc : BlockClose), fbcAuxF fuel u t = some (some bc) →
      tagAt u bc.start = some (t, bc.stop) := by
  induction fuel with
  | zero => intro u t bc h; cases h
  | succ n ih =>
    intro u t bc h
    simp only [fbcAuxF] at h
    cases hf : findSub u openPat with
    | none =>
      rw [hf] at h
      dsimp only [] at h
      exact absurd h (by simp)
    | some relStart =>
      rw [hf] at h
      dsimp only [] at h
      cases hc : findSub ((u.drop relStart).drop
          (openLenOf (openPat3.isPrefixOf (u.drop relStart))))
          (closeSeqOf (openPat3.isPrefixOf (u.drop relStart))) with
      | none =>
        rw [hc] at h
        dsimp only [] at h
        exact absurd h (by simp)
      | some closeRel =>
        rw [hc] at h
        dsimp only [] at h
        split at h
        · next hcond =>
          simp only [Option.some.injEq] at h
          subst h
          have hpre : openPat.isPrefixOf (u.drop relStart) = true := findSub_isPrefixOf hf
          have hc2 := hc
          rw [List.drop_drop] at hc2
          have hcond2 := hcond
          rw [List.drop_drop] at hcond2
          simp [tagAt, tagHere, hpre, hc2, hcond2]
        · next hcond =>
          cases hrec : fbcAuxF n (u.drop (relStart +
              (openLenOf (openPat3.isPrefixOf (u.drop relStart)) + closeRel +
               (closeSeqOf (openPat3.isPrefixOf (u.drop relStart))).length))) t with
          | none =>
            rw [hrec] at h
            dsimp only [] at h
            cases h
          | some ob =>
            cases ob with
            | none =>
              rw [hrec] at h
              dsimp only [] at h
              exact absurd h (by simp)
            | some bc2 =>
              rw [hrec] at h
              dsimp only [] at h
              simp only [Option.some.injEq] at h
              subst h
              exact tagAt_shift (ih _ t bc2 hrec)

/-- Soundness of fbcAux, through the fuel twin. -/
theorem fbcAux_sound {u t : List Char} {bc : BlockClose}
    (h : fbcAux u t = some bc) : tagAt u bc.start = some (t, bc.stop) := by
  have hc := fbcAuxF_complete (u.length + 1) u t (by omega)
  rw [h] at hc
  exact fbcAuxF_sound (u.length + 1) u t bc hc

/-- C4: the block-close matcher scans tag-by-tag with the driver's delimiter
    detection from the start offset: a found result is a genuine tag at or
    after the start offset whose trimmed token is the slash-prefixed name,
    with the returned offsets delimiting that tag; a scanned tag whose token
    is the close tag is returned at once, and any other scanned tag is
    skipped by restarting just past it, with no tracking of nesting depth —
    concretely, on a comment block nested in a same-named comment block the
    matcher returns the first close tag after the start offset even though a
    second same-named block opened before it. -/
theorem c4_block_close_matcher :
    (∀ (src : List Char) (i : Nat) (name : List Char) (bc : BlockClose),
      find_block_close src i name = some bc →
      i ≤ bc.start ∧ tagAt src bc.start = some (chars "/" ++ name, bc.stop)) ∧
    (∀ (src : List Char) (i : Nat) (name : List Char) (relStart closeRel : Nat),
      findSub (src.drop i) openPat = some relStart →
      findSub (((src.drop i).drop relStart).drop
          (openLenOf (openPat3.isPrefixOf ((src.drop i).drop relStart))))
        (closeSeqOf (openPat3.isPrefixOf ((src.drop i).drop relStart))) = some closeRel →
      trimChars ((((src.drop i).drop relStart).drop
          (openLenOf (openPat3.isPrefixOf ((src.drop i).drop relStart)))).take closeRel) =
        chars "/" ++ name →
      find_block_close src i name =
        some ⟨i + relStart,
          i + (relStart + (openLenOf (openPat3.isPrefixOf ((src.drop i).drop relStart)) +
            closeRel + (closeSeqOf (openPat3.isPrefixOf ((src.drop i).drop relStart))).length))⟩) ∧
    (∀ (src : List Char) (i : Nat) (name : List Char) (relStart closeRel : Nat),
      findSub (src.drop i) openPat = some relStart →
      findSub (((src.drop i).drop relStart).drop
          (openLenOf (openPat3.isPrefixOf ((src.drop i).drop relStart))))
        (closeSeqOf (openPat3.isPrefixOf ((src.drop i).drop relStart))) = some closeRel →
      trimChars ((((src.drop i).drop relStart).drop
          (openLenOf (openPat3.isPrefixOf ((src.drop i).drop relStart)))).take closeRel) ≠
        chars "/" ++ name →
      find_block_close src i name =
        find_block_close src
          (i + (relStart + (openLenOf (openPat3.isPrefixOf ((src.drop i).drop relStart)) +
            closeRel + (closeSeqOf (openPat3.isPrefixOf ((src.drop i).drop relStart))).length)))
          name) ∧
    (find_block_close
        (chars "\x7b\x7b#comment\x7d\x7dA\x7b\x7b#comment\x7d\x7dB\x7b\x7b/comment\x7d\x7dC\x7b\x7b/comment\x7d\x7d")
        12 (chars "comment") = some ⟨26, 38⟩ ∧
      tagAt (chars "\x7b\x7b#comment\x7d\x7dA\x7b\x7b#comment\x7d\x7dB\x7b\x7b/comment\x7d\x7dC\x7b\x7b/comment\x7d\x7d")
        13 = some (chars "#comment", 25) ∧
      tagAt (chars "\x7b\x7b#comment\x7d\x7dA\x7b\x7b#comment\x7d\x7dB\x7b\x7b/comment\x7d\x7dC\x7b\x7b/comment\x7d\x7d")
        26 = some (chars "/comment", 38)) := by
  refine ⟨?A, ?B, ?C, ?D⟩
  case A =>
    intro src i name bc h
    simp only [find_block_close, Option.map_eq_some'] at h
    obtain ⟨r, hr, hshift⟩ := h
    have hs := fbcAux_sound hr
    have hshifted := tagAt_shift hs
    subst hshift
    exact ⟨Nat.le_add_right i r.start, hshifted⟩
  case B =>
    intro src i name relStart closeRel hf hc htrim
    have ge := fbcAux.eq_def (src.drop i) (chars "/" ++ name)
    rw [hf] at ge
    dsimp only [] at ge
    split at ge
    · next heq =>
      rw [hc] at heq
      cases heq
    · next closeRel2 heq =>
      rw [hc] at heq
      injection heq with heq2
      subst heq2
      rw [if_pos htrim] at ge
      simp only [find_block_close, ge, Option.map_some']
  case C =>
    intro src i name relStart closeRel hf hc htrim
    have ge := fbcAux.eq_def (src.drop i) (chars "/" ++ name)
    rw [hf] at ge
    dsimp only [] at ge
    split at ge
    · next heq =>
      rw [hc] at heq
      cases heq
    · next closeRel2 heq =>
      rw [hc] at heq
      injection heq with heq2
      subst heq2
      rw [if_neg htrim] at ge
      rw [List.drop_drop] at ge
      cases hr : fbcAux (src.drop (i + (relStart +
          (openLenOf (openPat3.isPrefixOf ((src.drop i).drop relStart)) + closeRel +
           (closeSeqOf (openPat3.isPrefixOf ((src.drop i).drop relStart))).length)))) (chars "/" ++ name) with
      | none =>
        rw [hr] at ge
        dsimp only [] at ge
        simp only [find_block_close, ge, hr, Option.map_none']
      | some bc2 =>
        rw [hr] at ge
        dsimp only [] at ge
        simp only [find_block_close, ge, hr, Option.map_some', Option.some_inj,
          BlockClose.mk.injEq]
        omega
  case D =>
    refine ⟨?D1, by decide, by decide⟩
    case D1 =>
      have h := fbc_eval
        (chars "\x7b\x7b#comment\x7d\x7dA\x7b\x7b#comment\x7d\x7dB\x7b\x7b/comment\x7d\x7dC\x7b\x7b/comment\x7d\x7d")
        12 (chars "comment") (some ⟨14, 26⟩) (by decide)
      simpa using h

/-- Witness for C4 at a concrete close tag following one literal character. -/
theorem c4_block_close_matcher_witness :
    0 ≤ 1 ∧ tagAt (chars "x\x7b\x7b/c\x7d\x7d") 1 = some (chars "/c", 7) := by
  have hfb : find_block_close (chars "x\x7b\x7b/c\x7d\x7d") 0 (chars "c") = some ⟨1, 7⟩ := by
    have h := fbc_eval (chars "x\x7b\x7b/c\x7d\x7d") 0 (chars "c") (some ⟨1, 7⟩) (by decide)
    simpa using h
  have h := c4_block_close_matcher.1 (chars "x\x7b\x7b/c\x7d\x7d") 0 (chars "c") ⟨1, 7⟩ hfb
  simpa using h

/-- Witness for C5 on a token with marker, closing pipe and non-blank alias. -/
theorem c5_parse_each_contract_witness :
    parse_each (chars "items as | x |") = (chars "items", chars "x") := by
  have h := c5_parse_each_contract.2.2.2.1 (chars "items as | x |") 5 3
    (by decide) (by decide) (by decide)
  exact h

/-- Witness for C6 on a dot-slash token under alias x. -/
theorem c6_alias_rewrite_witness :
    transform_expression (chars "./name") (some (chars "x")) ⟨false⟩ =
      (chars "x.name", []) := by
  have h := c6_alias_rewrite.2.2.2.1 (chars "x") ⟨false⟩ (chars "./name")
    (chars "name") (by decide)
  exact h

end Sline
